import Mathlib

/-!
Verification of the keyword-classification core of `app.py`
(`KeywordClassificationAgent`): the batch classification engine
(`classify_keywords_to_excel`), the tolerant markdown-table parser
(`_parse_markdown_to_data`) and the tabular loader's column
classification (`convert_excel_to_json`).

Python strings are embedded as `List Char`; the Python string
primitives `split`, `strip`, `lower`, `count` and `range` are modelled
faithfully below.  Fallible operations (the LLM call) are modelled as
an oracle returning `Except`.
-/

namespace Seo

/-- A Python string, embedded as its character sequence. -/
abbrev Str := List Char

/-- A parsed output row: one cell per column, the keyword first. -/
abbrev Row := List Str

/-- Python `str.isspace` characters relevant to `str.strip()` (ASCII range). -/
def pyIsSpace (c : Char) : Bool :=
  c == ' ' || c == '\t' || c == '\n' || c == '\r' || c == '\x0B' || c == '\x0C'

/-- Right-strip: remove trailing whitespace, as the second half of Python
`str.strip()`. -/
def rstrip (s : Str) : Str :=
  (s.reverse.dropWhile pyIsSpace).reverse

/-- Python `str.strip()`: drop leading and trailing whitespace. -/
def pystrip (s : Str) : Str :=
  rstrip (s.dropWhile pyIsSpace)

/-- Python `str.lower()` (ASCII letters, which is all the code relies on). -/
def pylower (s : Str) : Str := s.map Char.toLower

/-- Python `str.split(sep)` for a one-character separator: split on every
occurrence, keeping empty segments, never returning an empty list. -/
def pysplit (sep : Char) : Str → List Str
  | [] => [[]]
  | c :: rest =>
    if c = sep then [] :: pysplit sep rest
    else
      match pysplit sep rest with
      | [] => [[c]]
      | s :: ss => (c :: s) :: ss

/-- Join a list of strings with a one-character separator (used to
re-serialize rows for the idempotent re-parse property). -/
def joinWith (sep : Char) : List Str → Str
  | [] => []
  | [s] => s
  | s :: t :: rest => s ++ sep :: joinWith sep (t :: rest)

/-- Python `range(0, stop, step)` for `step > 0`: the indices
`[0, step, 2*step, ...]` below `stop`; its length is `⌈stop/step⌉`,
per the documented CPython semantics. -/
def pyRange (stop step : Nat) : List Nat :=
  List.range' 0 ((stop + step - 1) / step) step

/-! ### The markdown table parser (`_parse_markdown_to_data`) -/

/-- Decoration / separator test from `_parse_markdown_to_data`:
`line.count('-') > len(line) * 0.5 or line.startswith('|--') or
all(c in '|-: ' for c in line.replace('|',''))`. -/
def isDecoration (line : Str) : Bool :=
  decide (line.length < 2 * line.count '-')
  || line.take 3 == ['|', '-', '-']
  || (line.filter (fun c => c != '|')).all (fun c => c == '-' || c == ':' || c == ' ')

/-- Cell extraction for one line: `[cell.strip() for cell in line.split('|')[1:-1]]`
— split on pipes, drop the first and the last segment, strip each cell. -/
def lineCells (line : Str) : Row :=
  (((pysplit '|' line).drop 1).dropLast).map pystrip

/-- Keyword normalization `str(k).strip().lower()`. -/
def normalizeKw (s : Str) : Str := pylower (pystrip s)

/-- The candidate lines: `[line.strip() for line in markdown_result.split('\n')
if '|' in line]`. -/
def candidateLines (md : Str) : List Str :=
  ((pysplit '\n' md).filter (fun l => l.contains '|')).map pystrip

/-- Candidate lines that survive the decoration filter (`filtered_lines`). -/
def filteredLines (md : Str) : List Str :=
  (candidateLines md).filter (fun l => !isDecoration l)

/-- The parser's header count: the cell count of the first filtered line if
that is non-empty, otherwise the caller-supplied expected column count. -/
def headerCountOf (md : Str) (expectedNumColumns : Nat) : Nat :=
  match filteredLines md with
  | [] => expectedNumColumns
  | header :: _ =>
    if (lineCells header).isEmpty then expectedNumColumns else (lineCells header).length

/-- The per-line acceptance test of the parser's data loop: reject on cell
count mismatch, reject an empty cell list, reject a first cell whose
normalization is not an expected keyword; otherwise accept the cells as-is. -/
def rowOfLine (normExpected : List Str) (headerCount : Nat) (line : Str) : Option Row :=
  let cells := lineCells line
  if cells.length ≠ headerCount then none
  else
    match cells with
    | [] => none
    | c0 :: _ =>
      if normExpected.contains (pylower (pystrip c0)) then some cells else none

/-- `_parse_markdown_to_data(markdown_result, expected_keywords,
expected_num_columns)`: keep pipe-containing lines, drop decoration lines,
read the header count from the first remaining line, then accept the
subsequent lines that pass `rowOfLine`, in response order. -/
def parseMarkdown (md : Str) (expectedKeywords : List Str) (expectedNumColumns : Nat) :
    List Row :=
  match filteredLines md with
  | [] => []
  | _ :: rest =>
    rest.filterMap (rowOfLine (expectedKeywords.map normalizeKw)
      (headerCountOf md expectedNumColumns))

/-- Canonical re-serialization of an accepted row to the markdown table
layout the parser consumes: pipe-delimited cells with leading and trailing
pipes (used to state the idempotent re-parse property). -/
def rowLine (r : Row) : Str :=
  '|' :: joinWith '|' r ++ ['|']

/-! ### The request schema and the tabular loader (`convert_excel_to_json`) -/

/-- A column spec: either a predefined-tags column `{name, tags}` or an
instruction-only column `{name, instructions}`. -/
inductive ColumnSpec where
  | tagged (name : Str) (tags : List Str)
  | instruction (name : Str) (instructions : Str)
deriving DecidableEq

/-- The `name` field common to both column variants. -/
def ColumnSpec.name : ColumnSpec → Str
  | .tagged n _ => n
  | .instruction n _ => n

/-- The JSON classification request: `{keywords, brands, columns}`. -/
structure JsonData where
  keywords : List Str
  brands : List Str
  columns : List ColumnSpec
deriving DecidableEq

/-- The loader's per-column value collection:
`col_values = df[col].dropna().astype(str).tolist()` followed by
`[val.strip() for val in col_values if val.strip()]` — missing cells are
dropped, each value is stripped, blank values are removed. -/
def nonblankValues (cells : List (Option Str)) : List Str :=
  (cells.filterMap id).filterMap
    (fun v => if (pystrip v).isEmpty then none else some (pystrip v))

/-- The loader's classification of one column (index ≥ 2):
`unique_values = list(set(col_values))`; a non-empty deduplicated value set
gives a tagged column, an empty one gives an instruction-only column with
empty instructions.  `list(set(...))` is embedded as `List.dedup` (Python's
set iteration order is unspecified; the claims are about the set). -/
def specOfColumn (name : Str) (cells : List (Option Str)) : ColumnSpec :=
  let unique := (nonblankValues cells).dedup
  if unique ≠ [] then .tagged name unique else .instruction name []

/-- The loader's column loop `for col in columns[2:]: ...
result["columns"].append(column_data)`, over a loaded table given as its
list of (column name, column cells) in sheet order. -/
def convertColumns (cols : List (Str × List (Option Str))) : List ColumnSpec :=
  (cols.drop 2).foldl (fun acc c => acc ++ [specOfColumn c.1 c.2]) []

/-! ### The classification engine (`classify_keywords_to_excel`) -/

/-- The output headers:
`['Original keyword'] + [col['name'] for col in self.columns]`. -/
def headersOf (cols : List ColumnSpec) : List Str :=
  ("Original keyword").toList :: cols.map ColumnSpec.name

/-- Per-batch prompt data: `batch_json = self.json_data.copy();
batch_json["keywords"] = batch_keywords` — a shallow copy of the request
with only the `keywords` entry rebound, i.e. a record update. -/
def batchPrompt (jd : JsonData) (batch : List Str) : JsonData :=
  { jd with keywords := batch }

/-- The batch slices `self.keywords[i:i + batch_size]` for
`i in range(0, total_keywords, batch_size)`. -/
def makeBatches {α : Type} (batchSize : Nat) (keywords : List α) : List (List α) :=
  (pyRange keywords.length batchSize).map (fun i => (keywords.drop i).take batchSize)

/-- One iteration of the engine loop.  The LLM call is an oracle taking the
batch number and the per-batch prompt data and returning the response text
or an exception; on success the stripped response is parsed against this
batch's keywords and `len(headers)`, and on any exception the batch falls
back to one row per keyword, `[keyword] + [''] * len(self.columns)`. -/
def runBatch (oracle : Nat → JsonData → Except Unit Str) (jd : JsonData)
    (cols : List ColumnSpec) (batchIdx : Nat) (batch : List Str) : List Row :=
  match oracle batchIdx (batchPrompt jd batch) with
  | .ok resp => parseMarkdown (pystrip resp) batch (headersOf cols).length
  | .error _ => batch.map (fun keyword => keyword :: List.replicate cols.length [])

/-- The engine's accumulation loop: `all_data = []` then
`all_data.extend(batch_data)` (or the fallback rows) once per batch, in
batch order. -/
def classifyRows (oracle : Nat → JsonData → Except Unit Str) (jd : JsonData)
    (cols : List ColumnSpec) (keywords : List Str) (batchSize : Nat) : List Row :=
  ((makeBatches batchSize keywords).enum).foldl
    (fun acc p => acc ++ runBatch oracle jd cols p.1 p.2) []

/-- The agent state the engine reads: `self.json_data`, `self.keywords`,
`self.columns` (`json_data` is `None` before `load_data`). -/
structure Agent where
  json_data : Option JsonData
  keywords : List Str
  columns : List ColumnSpec
deriving DecidableEq

/-- `classify_keywords_to_excel` as a state-passing function: it raises if no
data is loaded, otherwise it produces the accumulated rows; the method
assigns no attribute of `self`, so the resulting state is the input state. -/
def classifyAgent (oracle : Nat → JsonData → Except Unit Str) (st : Agent)
    (batchSize : Nat) : Except Unit (List Row × Agent) :=
  match st.json_data with
  | none => .error ()
  | some jd => .ok (classifyRows oracle jd st.columns st.keywords batchSize, st)

/-! ### Lemmas about the string primitives -/

theorem pysplit_nil (sep : Char) : pysplit sep [] = [[]] := rfl

theorem pysplit_cons_sep (sep : Char) (rest : Str) :
    pysplit sep (sep :: rest) = [] :: pysplit sep rest := by
  show (if sep = sep then _ else _) = _
  rw [if_pos rfl]

theorem pysplit_cons_ne (sep c : Char) (rest : Str) (h : c ≠ sep) (a : Str)
    (as : List Str) (hp : pysplit sep rest = a :: as) :
    pysplit sep (c :: rest) = (c :: a) :: as := by
  show (if c = sep then _ else _) = _
  rw [if_neg h, hp]

theorem pysplit_ne_nil (sep : Char) (s : Str) : pysplit sep s ≠ [] := by
  induction s with
  | nil => simp [pysplit_nil]
  | cons c rest ih =>
    by_cases h : c = sep
    · subst h
      simp [pysplit_cons_sep]
    · cases hp : pysplit sep rest with
      | nil => exact absurd hp ih
      | cons a as =>
        rw [pysplit_cons_ne sep c rest h a as hp]
        simp

theorem mem_head_pysplit (sep : Char) (rest : Str) :
    ∀ a as, pysplit sep rest = a :: as → a ∈ pysplit sep rest := by
  intro a as hp
  rw [hp]
  exact List.mem_cons_self a as

theorem length_pysplit (sep : Char) (s : Str) :
    (pysplit sep s).length = s.count sep + 1 := by
  induction s with
  | nil => simp [pysplit_nil]
  | cons c rest ih =>
    by_cases h : c = sep
    · subst h
      rw [pysplit_cons_sep]
      simp only [List.length_cons, List.count_cons_self, ih]
    · cases hp : pysplit sep rest with
      | nil => exact absurd hp (pysplit_ne_nil sep rest)
      | cons a as =>
        rw [pysplit_cons_ne sep c rest h a as hp]
        rw [hp] at ih
        simp only [List.length_cons] at ih ⊢
        rw [List.count_cons_of_ne (fun e => h e.symm)]
        omega

theorem sep_not_mem_pysplit (sep : Char) (s : Str) : ∀ t ∈ pysplit sep s, sep ∉ t := by
  induction s with
  | nil =>
    intro t ht
    rw [pysplit_nil] at ht
    simp at ht
    subst ht
    simp
  | cons c rest ih =>
    intro t ht
    by_cases h : c = sep
    · subst h
      rw [pysplit_cons_sep] at ht
      rcases List.mem_cons.mp ht with rfl | ht'
      · simp
      · exact ih t ht'
    · cases hp : pysplit sep rest with
      | nil => exact absurd hp (pysplit_ne_nil sep rest)
      | cons a as =>
        rw [pysplit_cons_ne sep c rest h a as hp] at ht
        rcases List.mem_cons.mp ht with rfl | ht'
        · intro hmem
          rcases List.mem_cons.mp hmem with heq | hmem'
          · exact h heq.symm
          · exact ih a (mem_head_pysplit sep rest a as hp) hmem'
        · exact ih t (by rw [hp]; exact List.mem_cons_of_mem a ht')

theorem mem_of_mem_pysplit (sep c : Char) (s : Str) :
    ∀ t ∈ pysplit sep s, c ∈ t → c ∈ s := by
  induction s with
  | nil =>
    intro t ht hc
    rw [pysplit_nil] at ht
    simp at ht
    subst ht
    simp at hc
  | cons b rest ih =>
    intro t ht hc
    by_cases h : b = sep
    · subst h
      rw [pysplit_cons_sep] at ht
      rcases List.mem_cons.mp ht with rfl | ht'
      · simp at hc
      · exact List.mem_cons_of_mem b (ih t ht' hc)
    · cases hp : pysplit sep rest with
      | nil => exact absurd hp (pysplit_ne_nil sep rest)
      | cons a as =>
        rw [pysplit_cons_ne sep b rest h a as hp] at ht
        rcases List.mem_cons.mp ht with rfl | ht'
        · rcases List.mem_cons.mp hc with rfl | hc'
          · exact List.mem_cons_self c rest
          · exact List.mem_cons_of_mem b (ih a (mem_head_pysplit sep rest a as hp) hc')
        · exact List.mem_cons_of_mem b
            (ih t (by rw [hp]; exact List.mem_cons_of_mem a ht') hc)

theorem dropWhile_dropWhile (p : Char → Bool) (l : Str) :
    (l.dropWhile p).dropWhile p = l.dropWhile p := by
  induction l with
  | nil => simp
  | cons c rest ih =>
    by_cases h : p c
    · simp [List.dropWhile_cons, h, ih]
    · simp [List.dropWhile_cons, h]

theorem head_dropWhile_false (p : Char → Bool) (l : Str) :
    ∀ c, (l.dropWhile p).head? = some c → p c = false := by
  induction l with
  | nil => intro c hc; simp at hc
  | cons b rest ih =>
    intro c hc
    by_cases h : p b
    · rw [List.dropWhile_cons_of_pos h] at hc
      exact ih c hc
    · rw [List.dropWhile_cons_of_neg h] at hc
      simp at hc
      subst hc
      exact Bool.of_not_eq_true h

theorem rstrip_prefix (s : Str) : rstrip s <+: s := by
  have h1 : (s.reverse.dropWhile pyIsSpace) <:+ s.reverse := List.dropWhile_suffix _
  have h2 : (rstrip s).reverse <:+ s.reverse := by
    unfold rstrip
    rw [List.reverse_reverse]
    exact h1
  exact List.reverse_suffix.mp h2

theorem rstrip_rstrip (s : Str) : rstrip (rstrip s) = rstrip s := by
  unfold rstrip
  rw [List.reverse_reverse, dropWhile_dropWhile]

theorem dropWhile_rstrip_dropWhile (s : Str) :
    (rstrip (s.dropWhile pyIsSpace)).dropWhile pyIsSpace
      = rstrip (s.dropWhile pyIsSpace) := by
  cases hr : rstrip (s.dropWhile pyIsSpace) with
  | nil => simp
  | cons a u =>
    have hpre : rstrip (s.dropWhile pyIsSpace) <+: s.dropWhile pyIsSpace :=
      rstrip_prefix _
    rw [hr] at hpre
    obtain ⟨r, hrw⟩ := hpre
    have hhead : (s.dropWhile pyIsSpace).head? = some a := by
      rw [← hrw]
      rfl
    have ha : pyIsSpace a = false := head_dropWhile_false pyIsSpace s a hhead
    rw [List.dropWhile_cons_of_neg (by simp [ha])]

theorem pystrip_idem (s : Str) : pystrip (pystrip s) = pystrip s := by
  unfold pystrip
  rw [dropWhile_rstrip_dropWhile, rstrip_rstrip]

/-! ### Lemmas about the parser -/

theorem rowOfLine_some_iff {normExp : List Str} {hc : Nat} {line : Str} {r : Row} :
    rowOfLine normExp hc line = some r ↔
      (r = lineCells line ∧ r.length = hc ∧
        ∃ c0 cs, r = c0 :: cs ∧ normExp.contains (pylower (pystrip c0)) = true) := by
  unfold rowOfLine
  dsimp only
  cases hcells : lineCells line with
  | nil =>
    dsimp only
    constructor
    · intro h
      split at h
      · exact absurd h (by simp)
      · exact absurd h (by simp)
    · rintro ⟨rfl, _, c0, cs, hcons, _⟩
      exact absurd hcons (by simp)
  | cons c0 cs =>
    by_cases hl : (c0 :: cs).length ≠ hc
    · rw [if_pos hl]
      constructor
      · intro h
        exact absurd h (by simp)
      · rintro ⟨rfl, hlen, _⟩
        exact absurd hlen hl
    · rw [if_neg hl]
      dsimp only
      push_neg at hl
      by_cases hm : normExp.contains (pylower (pystrip c0)) = true
      · rw [if_pos hm]
        constructor
        · intro h
          have hr : r = c0 :: cs := by
            have := Option.some.inj h
            exact this.symm
          exact ⟨hr, hr ▸ hl, c0, cs, hr, hm⟩
        · rintro ⟨rfl, _, _⟩
          rfl
      · rw [if_neg hm]
        constructor
        · intro h
          exact absurd h (by simp)
        · rintro ⟨rfl, _, c0', cs', heq, hcont⟩
          have : c0' = c0 := (List.cons.inj heq).1.symm
          exact absurd (this ▸ hcont) hm

theorem contains_map_normalizeKw (expected : List Str) (x : Str) :
    (expected.map normalizeKw).contains x = true ↔ ∃ k ∈ expected, x = normalizeKw k := by
  simp [List.contains, List.mem_map]
  constructor
  · rintro ⟨k, hk, he⟩
    exact ⟨k, hk, he.symm⟩
  · rintro ⟨k, hk, he⟩
    exact ⟨k, hk, he.symm⟩

theorem mem_parseMarkdown {md : Str} {expected : List Str} {n : Nat} {r : Row}
    (h : r ∈ parseMarkdown md expected n) :
    ∃ header rest line, filteredLines md = header :: rest ∧ line ∈ rest ∧
      rowOfLine (expected.map normalizeKw) (headerCountOf md n) line = some r := by
  unfold parseMarkdown at h
  cases hf : filteredLines md with
  | nil =>
    rw [hf] at h
    simp at h
  | cons header rest =>
    rw [hf] at h
    simp only at h
    obtain ⟨line, hline, hrow⟩ := List.mem_filterMap.mp h
    exact ⟨header, rest, line, rfl, hline, hrow⟩

/-! ### Claims C3, C4, C5, C6, C10 -/

/-- C3 (counterexample): on the exact quoted response text, whose lines lack
leading and trailing pipes, the parser returns `[]` rather than the claimed
two rows: dropping the first and last pipe-split segment of every line leaves
each data line with too few cells. -/
theorem claim_C3_counterexample :
    parseMarkdown ("Header|A\n---|---\nfoo|X\nbar|Y|Z\nbaz|Q").toList
        [("foo").toList, ("baz").toList] 2 = []
    ∧ parseMarkdown ("Header|A\n---|---\nfoo|X\nbar|Y|Z\nbaz|Q").toList
        [("foo").toList, ("baz").toList] 2
      ≠ [[("foo").toList, ("X").toList], [("baz").toList, ("Q").toList]] := by
  decide

/-- C3 (amended): with the same table serialized with leading and trailing
pipe delimiters on every line, the parser returns exactly
`[[foo, X], [baz, Q]]`: the `bar` line is rejected for wrong cell count and
unexpected keyword, and the separator line is rejected as decoration. -/
theorem claim_C3 :
    parseMarkdown ("|Header|A|\n|---|---|\n|foo|X|\n|bar|Y|Z|\n|baz|Q|").toList
        [("foo").toList, ("baz").toList] 2
      = [[("foo").toList, ("X").toList], [("baz").toList, ("Q").toList]] := by
  decide

/-- C4 (counterexample): with one `ColumnSpec` the engine's headers have
length 2, but a response whose own header row has three cells makes the
parser accept a three-cell row, so an accepted row's cell count can differ
from the length of the engine's headers list. -/
theorem claim_C4_counterexample :
    parseMarkdown ("|H1|H2|H3|\n|foo|X|Y|").toList [("foo").toList]
        (headersOf [ColumnSpec.tagged ("C").toList []]).length
      = [[("foo").toList, ("X").toList, ("Y").toList]]
    ∧ ([("foo").toList, ("X").toList, ("Y").toList] : Row).length
      ≠ (headersOf [ColumnSpec.tagged ("C").toList []]).length := by
  decide

/-- C4 (amended): every row accepted by the markdown parser has cell count
equal to the parser's header count — the cell count extracted from the
response's own header line when non-empty, the caller-supplied expected
column count otherwise — which need not equal the engine's header length. -/
theorem claim_C4 : ∀ (md : Str) (expected : List Str) (n : Nat) (r : Row),
    r ∈ parseMarkdown md expected n → r.length = headerCountOf md n := by
  intro md expected n r h
  obtain ⟨_, _, _, _, _, hrow⟩ := mem_parseMarkdown h
  exact (rowOfLine_some_iff.mp hrow).2.1

/-- C4 witness: the amended theorem applied to a concrete parse. -/
theorem claim_C4_witness :
    ([("foo").toList, ("X").toList] : Row).length
      = headerCountOf ("|A|B|\n|foo|X|").toList 2 :=
  claim_C4 (("|A|B|\n|foo|X|").toList) [("foo").toList] 2
    [("foo").toList, ("X").toList] (by decide)

/-- C5: a candidate data line is accepted exactly when its extracted cell
count equals the header count and its first cell, trimmed and lowercased,
equals some expected keyword trimmed and lowercased; the accepted row is the
extracted cell sequence as-is.  Concretely, with expected set
`{Running Shoes}` the data line `|running shoes|Footwear|` is accepted with
its cells kept unchanged. -/
theorem claim_C5 :
    (∀ (expected : List Str) (hc : Nat) (line : Str) (r : Row),
        rowOfLine (expected.map normalizeKw) hc line = some r ↔
          (r = lineCells line ∧ r.length = hc ∧
            ∃ c0 cs, r = c0 :: cs ∧
              ∃ k ∈ expected, pylower (pystrip c0) = normalizeKw k))
    ∧ parseMarkdown ("|Keyword|Category|\n|running shoes|Footwear|").toList
        [("Running Shoes").toList] 2
      = [[("running shoes").toList, ("Footwear").toList]] := by
  constructor
  · intro expected hc line r
    rw [rowOfLine_some_iff]
    constructor
    · rintro ⟨h1, h2, c0, cs, h3, h4⟩
      exact ⟨h1, h2, c0, cs, h3, (contains_map_normalizeKw expected _).mp h4⟩
    · rintro ⟨h1, h2, c0, cs, h3, h4⟩
      exact ⟨h1, h2, c0, cs, h3, (contains_map_normalizeKw expected _).mpr h4⟩
  · decide

/-- C6: an input none of whose lines contains a pipe parses to the empty row
list, and on every input the number of returned rows is bounded by the number
of input lines: the parser is a total function that degrades to fewer or zero
rows on malformed input. -/
theorem claim_C6 :
    (∀ (md : Str) (expected : List Str) (n : Nat),
        (∀ l ∈ pysplit '\n' md, l.contains '|' = false) →
          parseMarkdown md expected n = [])
    ∧ ∀ (md : Str) (expected : List Str) (n : Nat),
        (parseMarkdown md expected n).length ≤ (pysplit '\n' md).length := by
  constructor
  · intro md expected n h
    have hcand : candidateLines md = [] := by
      unfold candidateLines
      rw [List.filter_eq_nil_iff.mpr ?_]
      · rfl
      · intro a ha
        have hh := h a ha
        simp at hh ⊢
        exact hh
    have hfil : filteredLines md = [] := by
      unfold filteredLines
      rw [hcand]
      rfl
    unfold parseMarkdown
    rw [hfil]
  · intro md expected n
    have h1 : (filteredLines md).length ≤ (pysplit '\n' md).length := by
      unfold filteredLines candidateLines
      calc ((((pysplit '\n' md).filter (fun l => l.contains '|')).map
              pystrip).filter (fun l => !isDecoration l)).length
          ≤ (((pysplit '\n' md).filter (fun l => l.contains '|')).map pystrip).length :=
            List.length_filter_le _ _
        _ = ((pysplit '\n' md).filter (fun l => l.contains '|')).length :=
            List.length_map _ _
        _ ≤ (pysplit '\n' md).length := List.length_filter_le _ _
    unfold parseMarkdown
    cases hf : filteredLines md with
    | nil => simp
    | cons header rest =>
      dsimp only
      rw [hf] at h1
      calc (rest.filterMap (rowOfLine (expected.map normalizeKw)
              (headerCountOf md n))).length
          ≤ rest.length := List.length_filterMap_le _ _
        _ ≤ (header :: rest).length := by
            rw [List.length_cons]
            omega
        _ ≤ (pysplit '\n' md).length := h1

/-- C6 witness: the no-pipe case applied to a concrete input. -/
theorem claim_C6_witness : parseMarkdown ("hello world").toList [] 3 = [] :=
  claim_C6.1 (("hello world").toList) [] 3 (by decide)

/-- C10: a line containing exactly one pipe yields an empty extracted cell
list, since splitting on pipes gives two segments and the first and last
segments are both dropped; hence for any positive header count such a line is
never accepted as a data row. -/
theorem claim_C10 : ∀ line : Str, line.count '|' = 1 →
    lineCells line = [] ∧
      ∀ (normExp : List Str) (hc : Nat), 1 ≤ hc →
        rowOfLine normExp hc line = none := by
  intro line hcount
  have hlen : (pysplit '|' line).length = 2 := by
    rw [length_pysplit, hcount]
  obtain ⟨a, b, hab⟩ := List.length_eq_two.mp hlen
  have hcells : lineCells line = [] := by
    unfold lineCells
    rw [hab]
    rfl
  refine ⟨hcells, fun normExp hc hhc => ?_⟩
  unfold rowOfLine
  rw [hcells]
  dsimp only
  rw [if_pos (by simp; omega)]

/-- C10 witness: the single-pipe line `a|b` yields no cells and is
rejected. -/
theorem claim_C10_witness :
    (("a|b").toList.count '|' = 1)
    ∧ lineCells ("a|b").toList = []
    ∧ rowOfLine [] 1 ("a|b").toList = none :=
  ⟨by decide, (claim_C10 (("a|b").toList) (by decide)).1,
    (claim_C10 (("a|b").toList) (by decide)).2 [] 1 (by decide)⟩

/-! ### Lemmas about the engine -/

theorem foldl_append_eq_flatMap {α β : Type} (f : α → List β) :
    ∀ (l : List α) (init : List β),
      l.foldl (fun acc x => acc ++ f x) init = init ++ l.flatMap f := by
  intro l
  induction l with
  | nil => intro init; simp
  | cons a l ih =>
    intro init
    rw [List.foldl_cons, ih, List.flatMap_cons, List.append_assoc]

theorem classifyRows_eq_flatMap (oracle : Nat → JsonData → Except Unit Str)
    (jd : JsonData) (cols : List ColumnSpec) (keywords : List Str) (B : Nat) :
    classifyRows oracle jd cols keywords B
      = ((makeBatches B keywords).enum).flatMap
          (fun p => runBatch oracle jd cols p.1 p.2) := by
  unfold classifyRows
  rw [foldl_append_eq_flatMap]
  rfl

theorem range'_add_left : ∀ (n s k step : Nat),
    List.range' (s + k) n step = (List.range' s n step).map (· + k) := by
  intro n
  induction n with
  | zero => intro s k step; rfl
  | succ m ih =>
    intro s k step
    rw [List.range'_succ, List.range'_succ, List.map_cons]
    congr 1
    rw [show s + k + step = (s + step) + k by omega]
    exact ih (s + step) k step

theorem ceil_div_succ (m B : Nat) (hB : 0 < B) (hm : 0 < m) :
    (m + B - 1) / B = (m - B + B - 1) / B + 1 := by
  rcases Nat.lt_or_ge m B with h | h
  · have h1 : m - B = 0 := Nat.sub_eq_zero_of_le (Nat.le_of_lt h)
    have h2 : (0 + B - 1) / B = 0 := Nat.div_eq_of_lt (by omega)
    have h3 : (m + B - 1) / B = 1 := by
      apply Nat.div_eq_of_lt_le
      · omega
      · omega
    rw [h1]
    omega
  · have heq : m + B - 1 = (m - B + B - 1) + B := by omega
    rw [heq, Nat.add_div_right _ hB]

theorem makeBatches_nil {α : Type} (B : Nat) : makeBatches B ([] : List α) = [] := by
  unfold makeBatches pyRange
  have h0 : (List.length ([] : List α) + B - 1) / B = 0 := by
    rcases Nat.eq_zero_or_pos B with rfl | hB
    · simp
    · rw [List.length_nil]
      exact Nat.div_eq_of_lt (by omega)
  rw [h0]
  rfl

theorem makeBatches_cons_eq {α : Type} (B : Nat) (hB : 0 < B) (l : List α)
    (hl : l ≠ []) :
    makeBatches B l = l.take B :: makeBatches B (l.drop B) := by
  unfold makeBatches pyRange
  have hlen : 0 < l.length := List.length_pos.mpr hl
  rw [ceil_div_succ l.length B hB hlen]
  rw [List.range'_succ, List.map_cons, List.drop_zero]
  congr 1
  rw [List.length_drop]
  rw [range'_add_left]
  rw [List.map_map]
  apply List.map_congr_left
  intro i _
  show (l.drop (i + B)).take B = ((l.drop B).drop i).take B
  rw [List.drop_drop]
  rw [Nat.add_comm B i]

set_option maxRecDepth 8192 in
/-- C2: for every keyword list and positive batch size, the engine's batch
slices are contiguous prefixes of size at most B whose concatenation is the
original list, and the batch count is the code's ceiling formula
`(total + B - 1) / B`; concretely 450 keywords with batch size 200 give batch
sizes `[200, 200, 50]`. -/
theorem claim_C2 :
    (∀ (keywords : List Str) (B : Nat), 0 < B →
        ((makeBatches B keywords).all (fun b => decide (b.length ≤ B)) = true)
        ∧ (makeBatches B keywords).flatten = keywords
        ∧ (makeBatches B keywords).length = (keywords.length + B - 1) / B)
    ∧ (makeBatches 200 (List.replicate 450 ([] : Str))).map List.length
        = [200, 200, 50] := by
  constructor
  · intro keywords B hB
    refine ⟨?_, ?_, ?_⟩
    · rw [List.all_eq_true]
      intro b hb
      obtain ⟨i, _, rfl⟩ := List.mem_map.mp hb
      exact decide_eq_true (List.length_take_le B _)
    · have hjoin : ∀ (N : Nat) (l : List Str), l.length ≤ N →
          (makeBatches B l).flatten = l := by
        intro N
        induction N with
        | zero =>
          intro l hl
          have : l = [] := List.length_eq_zero.mp (Nat.le_zero.mp hl)
          subst this
          rw [makeBatches_nil]
          rfl
        | succ N ih =>
          intro l hl
          rcases eq_or_ne l [] with rfl | hne
          · rw [makeBatches_nil]
            rfl
          · rw [makeBatches_cons_eq B hB l hne, List.flatten_cons]
            rw [ih (l.drop B) (by
              rw [List.length_drop]
              have := List.length_pos.mpr hne
              omega)]
            exact List.take_append_drop B l
      exact hjoin keywords.length keywords (Nat.le_refl _)
    · unfold makeBatches pyRange
      rw [List.length_map]
      simp
  · decide

set_option maxRecDepth 8192 in
/-- C2 witness: the general theorem applied to 450 keywords in batches of
200. -/
theorem claim_C2_witness :
    ((makeBatches 200 (List.replicate 450 ([] : Str))).all
        (fun b => decide (b.length ≤ 200)) = true)
    ∧ (makeBatches 200 (List.replicate 450 ([] : Str))).flatten
        = List.replicate 450 ([] : Str)
    ∧ (makeBatches 200 (List.replicate 450 ([] : Str))).length
        = ((List.replicate 450 ([] : Str)).length + 200 - 1) / 200 :=
  claim_C2.1 (List.replicate 450 ([] : Str)) 200 (by decide)

/-- C1: if the LLM oracle raises on batch j, the engine's accumulated output
is the outputs of the earlier batches, then exactly one fallback row per
keyword of batch j in batch order — the keyword followed by one empty string
per `ColumnSpec` — then the outputs of the later batches, which are still
processed; the exception never escapes (`classifyRows` is a total function)
and every keyword of the failed batch appears in the final output. -/
theorem claim_C1 : ∀ (oracle : Nat → JsonData → Except Unit Str) (jd : JsonData)
    (cols : List ColumnSpec) (keywords : List Str) (B j : Nat) (batch : List Str),
    (makeBatches B keywords)[j]? = some batch →
    oracle j (batchPrompt jd batch) = .error () →
    (classifyRows oracle jd cols keywords B
      = (((makeBatches B keywords).take j).enum).flatMap
          (fun p => runBatch oracle jd cols p.1 p.2)
        ++ batch.map (fun kw => kw :: List.replicate cols.length [])
        ++ (((makeBatches B keywords).drop (j + 1)).enumFrom (j + 1)).flatMap
          (fun p => runBatch oracle jd cols p.1 p.2))
    ∧ (batch.map (fun kw => kw :: List.replicate cols.length [])).length
        = batch.length
    ∧ ∀ kw ∈ batch,
        (kw :: List.replicate cols.length []) ∈ classifyRows oracle jd cols keywords B := by
  intro oracle jd cols keywords B j batch hget horacle
  obtain ⟨hj, hbatch⟩ := List.getElem?_eq_some.mp hget
  have hsplit : makeBatches B keywords
      = (makeBatches B keywords).take j
        ++ batch :: (makeBatches B keywords).drop (j + 1) := by
    conv_lhs => rw [← List.take_append_drop j (makeBatches B keywords)]
    congr 1
    rw [List.drop_eq_getElem_cons hj, hbatch]
  have hlen_take : ((makeBatches B keywords).take j).length = j := by
    rw [List.length_take]
    omega
  have henum : (makeBatches B keywords).enum
      = ((makeBatches B keywords).take j).enum
        ++ ((j, batch)
            :: ((makeBatches B keywords).drop (j + 1)).enumFrom (j + 1)) := by
    show List.enumFrom 0 (makeBatches B keywords) = _
    conv_lhs => rw [hsplit]
    rw [List.enumFrom_append, hlen_take]
    congr 1
    rw [Nat.zero_add, List.enumFrom_cons]
  have hrun : runBatch oracle jd cols j batch
      = batch.map (fun kw => kw :: List.replicate cols.length []) := by
    unfold runBatch
    rw [horacle]
  have hmain : classifyRows oracle jd cols keywords B
      = (((makeBatches B keywords).take j).enum).flatMap
          (fun p => runBatch oracle jd cols p.1 p.2)
        ++ batch.map (fun kw => kw :: List.replicate cols.length [])
        ++ (((makeBatches B keywords).drop (j + 1)).enumFrom (j + 1)).flatMap
          (fun p => runBatch oracle jd cols p.1 p.2) := by
    rw [classifyRows_eq_flatMap, henum, List.flatMap_append, List.flatMap_cons]
    dsimp only
    rw [hrun, List.append_assoc]
  refine ⟨hmain, by rw [List.length_map], ?_⟩
  intro kw hkw
  rw [hmain]
  exact List.mem_append.mpr (Or.inl (List.mem_append.mpr (Or.inr
    (List.mem_map.mpr ⟨kw, hkw, rfl⟩))))

/-- C1 witness: with three keywords, batch size 2, one column, and an oracle
that raises on batch 0 and answers batch 1, the fallback row for keyword `a`
appears in the engine output. -/
theorem claim_C1_witness :
    (("a").toList
        :: List.replicate ([ColumnSpec.tagged ("T").toList [("x").toList]]).length
             ([] : Str))
      ∈ classifyRows
          (fun jn _ => if jn = 0 then Except.error ()
            else Except.ok (("|Original keyword|T|\n|c|x|").toList))
          ⟨[("a").toList, ("b").toList, ("c").toList], [],
            [ColumnSpec.tagged ("T").toList [("x").toList]]⟩
          [ColumnSpec.tagged ("T").toList [("x").toList]]
          [("a").toList, ("b").toList, ("c").toList] 2 :=
  (claim_C1
    (fun jn _ => if jn = 0 then Except.error ()
      else Except.ok (("|Original keyword|T|\n|c|x|").toList))
    ⟨[("a").toList, ("b").toList, ("c").toList], [],
      [ColumnSpec.tagged ("T").toList [("x").toList]]⟩
    [ColumnSpec.tagged ("T").toList [("x").toList]]
    [("a").toList, ("b").toList, ("c").toList] 2 0
    [("a").toList, ("b").toList] (by decide) (by rfl)).2.2
    (("a").toList) (by decide)

/-- C9: classification leaves the loaded request unchanged — the resulting
agent state equals the input state, so its keywords, brands and columns
(including column order) are those set at load time — while each per-batch
prompt substitutes only the `keywords` entry of a copy of the request,
leaving its brands and columns intact. -/
theorem claim_C9 : ∀ (oracle : Nat → JsonData → Except Unit Str) (st : Agent)
    (B : Nat) (rows : List Row) (st' : Agent) (jd : JsonData) (batch : List Str),
    classifyAgent oracle st B = .ok (rows, st') →
    st' = st
    ∧ (batchPrompt jd batch).keywords = batch
    ∧ (batchPrompt jd batch).brands = jd.brands
    ∧ (batchPrompt jd batch).columns = jd.columns := by
  intro oracle st B rows st' jd batch h
  unfold classifyAgent at h
  cases hjd : st.json_data with
  | none =>
    rw [hjd] at h
    exact absurd h (by simp)
  | some jd0 =>
    rw [hjd] at h
    simp only at h
    obtain ⟨_, hst⟩ := Prod.mk.inj (Except.ok.inj h)
    exact ⟨hst.symm, rfl, rfl, rfl⟩

/-- C9 witness: the frame theorem applied to a one-keyword agent and an
always-failing oracle. -/
theorem claim_C9_witness :
    (⟨some ⟨[("a").toList], [], []⟩, [("a").toList], []⟩ : Agent)
      = ⟨some ⟨[("a").toList], [], []⟩, [("a").toList], []⟩
    ∧ (batchPrompt ⟨[("a").toList], [], []⟩ [("b").toList]).keywords
        = [("b").toList]
    ∧ (batchPrompt ⟨[("a").toList], [], []⟩ [("b").toList]).brands
        = (⟨[("a").toList], [], []⟩ : JsonData).brands
    ∧ (batchPrompt ⟨[("a").toList], [], []⟩ [("b").toList]).columns
        = (⟨[("a").toList], [], []⟩ : JsonData).columns :=
  claim_C9 (fun _ _ => Except.error ())
    ⟨some ⟨[("a").toList], [], []⟩, [("a").toList], []⟩ 1
    [[("a").toList]]
    ⟨some ⟨[("a").toList], [], []⟩, [("a").toList], []⟩
    ⟨[("a").toList], [], []⟩ [("b").toList] (by rfl)

/-! ### Lemmas about the loader -/

theorem foldl_append_singleton_eq_map {α β : Type} (g : α → β) :
    ∀ (l : List α) (init : List β),
      l.foldl (fun acc x => acc ++ [g x]) init = init ++ l.map g := by
  intro l
  induction l with
  | nil => intro init; simp
  | cons a l ih =>
    intro init
    rw [List.foldl_cons, ih, List.map_cons, List.append_assoc]
    rfl

theorem convertColumns_eq_map (cols : List (Str × List (Option Str))) :
    convertColumns cols = (cols.drop 2).map (fun c => specOfColumn c.1 c.2) := by
  unfold convertColumns
  rw [foldl_append_singleton_eq_map]
  rfl

theorem specOfColumn_of_nonempty (name : Str) (cells : List (Option Str))
    (h : nonblankValues cells ≠ []) :
    ∃ tags, specOfColumn name cells = .tagged name tags ∧ tags.Nodup
      ∧ ∀ t, (t ∈ tags ↔ t ∈ nonblankValues cells) := by
  unfold specOfColumn
  dsimp only
  have hd : (nonblankValues cells).dedup ≠ [] := by
    rw [Ne, List.dedup_eq_nil]
    exact h
  rw [if_pos hd]
  exact ⟨_, rfl, List.nodup_dedup _, fun t => List.mem_dedup⟩

theorem specOfColumn_of_empty (name : Str) (cells : List (Option Str))
    (h : nonblankValues cells = []) :
    specOfColumn name cells = .instruction name [] := by
  unfold specOfColumn
  dsimp only
  rw [if_neg (fun hne => hne (by rw [h]; rfl))]

/-- C7: each loaded column from index 2 onward maps, in the table's column
order, to one `ColumnSpec`: a tagged column whose tag list is precisely the
deduplicated set of the column's non-empty trimmed stringified values when
that set is non-empty, and an instruction-only column with empty instructions
when the column is entirely blank. -/
theorem claim_C7 : ∀ (cols : List (Str × List (Option Str))) (k : Nat)
    (name : Str) (cells : List (Option Str)),
    (cols.drop 2)[k]? = some (name, cells) →
    (convertColumns cols).length = (cols.drop 2).length
    ∧ (convertColumns cols)[k]? = some (specOfColumn name cells)
    ∧ (nonblankValues cells ≠ [] →
        ∃ tags, specOfColumn name cells = .tagged name tags ∧ tags.Nodup
          ∧ ∀ t, (t ∈ tags ↔ t ∈ nonblankValues cells))
    ∧ (nonblankValues cells = [] →
        specOfColumn name cells = .instruction name []) := by
  intro cols k name cells hk
  refine ⟨?_, ?_, fun h => specOfColumn_of_nonempty name cells h,
    fun h => specOfColumn_of_empty name cells h⟩
  · rw [convertColumns_eq_map, List.length_map]
  · rw [convertColumns_eq_map, List.getElem?_map, hk]
    rfl

/-- C7 witness: a table whose third column is blank becomes an
instruction-only column with empty instructions, at position 0 of the
produced specs after the keyword and brand columns. -/
theorem claim_C7_witness :
    (convertColumns [(("kw").toList, []), (("brand").toList, []),
        (("color").toList, [some (" Red ").toList, none, some ("Red").toList]),
        (("note").toList, [none, some (" ").toList])])[1]?
      = some (specOfColumn ("note").toList [none, some (" ").toList])
    ∧ specOfColumn ("note").toList [none, some (" ").toList]
      = ColumnSpec.instruction ("note").toList [] :=
  ⟨(claim_C7 [(("kw").toList, []), (("brand").toList, []),
      (("color").toList, [some (" Red ").toList, none, some ("Red").toList]),
      (("note").toList, [none, some (" ").toList])] 1
      (("note").toList) [none, some (" ").toList] (by decide)).2.1,
   (claim_C7 [(("kw").toList, []), (("brand").toList, []),
      (("color").toList, [some (" Red ").toList, none, some ("Red").toList]),
      (("note").toList, [none, some (" ").toList])] 1
      (("note").toList) [none, some (" ").toList] (by decide)).2.2.2 (by decide)⟩

/-! ### Lemmas for the idempotent re-parse property -/

theorem mem_dropWhile_of_not (p : Char → Bool) {c : Char} (hc : p c = false) :
    ∀ {s : Str}, c ∈ s → c ∈ s.dropWhile p := by
  intro s h
  have hsplit := List.takeWhile_append_dropWhile (p := p) (l := s)
  have hm : c ∈ s.takeWhile p ++ s.dropWhile p := by
    rw [hsplit]
    exact h
  rcases List.mem_append.mp hm with h' | h'
  · exact absurd (List.mem_takeWhile_imp h') (by simp [hc])
  · exact h'

theorem mem_pystrip_of_mem {c : Char} (hc : pyIsSpace c = false) {s : Str}
    (h : c ∈ s) : c ∈ pystrip s := by
  unfold pystrip rstrip
  have h1 : c ∈ s.dropWhile pyIsSpace := mem_dropWhile_of_not pyIsSpace hc h
  have h2 : c ∈ (s.dropWhile pyIsSpace).reverse := List.mem_reverse.mpr h1
  exact List.mem_reverse.mpr (mem_dropWhile_of_not pyIsSpace hc h2)

theorem mem_of_mem_pystrip {c : Char} {s : Str} (h : c ∈ pystrip s) : c ∈ s := by
  unfold pystrip rstrip at h
  have h1 := List.mem_reverse.mp h
  have h2 := (List.dropWhile_suffix pyIsSpace).subset h1
  exact (List.dropWhile_suffix pyIsSpace).subset (List.mem_reverse.mp h2)

theorem map_pystrip_id : ∀ (l : List Str), (∀ s ∈ l, pystrip s = s) →
    l.map pystrip = l := by
  intro l
  induction l with
  | nil => intro _; rfl
  | cons a t ih =>
    intro h
    rw [List.map_cons, h a (List.mem_cons_self a t),
      ih (fun s hs => h s (List.mem_cons_of_mem a hs))]

theorem pystrip_of_ends (a b : Char) (xs : Str) (ha : pyIsSpace a = false)
    (hb : pyIsSpace b = false) :
    pystrip (a :: (xs ++ [b])) = a :: (xs ++ [b]) := by
  unfold pystrip rstrip
  rw [List.dropWhile_cons_of_neg (by simp [ha])]
  rw [show (a :: (xs ++ [b])).reverse = b :: (xs.reverse ++ [a]) by simp]
  rw [List.dropWhile_cons_of_neg (by simp [hb])]
  simp

theorem pystrip_rowLine (r : Row) : pystrip (rowLine r) = rowLine r :=
  pystrip_of_ends '|' '|' (joinWith '|' r) (by decide) (by decide)

theorem not_mem_joinWith (c sep : Char) (hne : c ≠ sep) :
    ∀ ts : List Str, (∀ t ∈ ts, c ∉ t) → c ∉ joinWith sep ts := by
  intro ts
  induction ts with
  | nil =>
    intro _
    simp [joinWith]
  | cons t rest ih =>
    intro h
    cases rest with
    | nil => simpa [joinWith] using h t (List.mem_cons_self t [])
    | cons t2 rest2 =>
      show c ∉ t ++ sep :: joinWith sep (t2 :: rest2)
      intro hmem
      rcases List.mem_append.mp hmem with h' | h'
      · exact h t (List.mem_cons_self _ _) h'
      · rcases List.mem_cons.mp h' with rfl | h''
        · exact hne rfl
        · exact ih (fun u hu => h u (List.mem_cons_of_mem t hu)) h''

theorem rowLine_no_newline (r : Row) (h : ∀ cell ∈ r, '\n' ∉ cell) :
    '\n' ∉ rowLine r := by
  unfold rowLine
  intro hmem
  rcases List.mem_cons.mp hmem with heq | hmem'
  · exact absurd heq (by decide)
  · rcases List.mem_append.mp hmem' with h' | h'
    · exact not_mem_joinWith '\n' '|' (by decide) r h h'
    · exact absurd (List.mem_singleton.mp h') (by decide)

theorem contains_pipe_of_mem {s : Str} (h : '|' ∈ s) : s.contains '|' = true := by
  simpa using h

theorem pysplit_append_sep_cons (sep : Char) :
    ∀ (t u : Str), sep ∉ t → pysplit sep (t ++ sep :: u) = t :: pysplit sep u := by
  intro t
  induction t with
  | nil =>
    intro u _
    simpa using pysplit_cons_sep sep u
  | cons c t ih =>
    intro u hmem
    have hc : c ≠ sep := fun e => hmem (List.mem_cons.mpr (Or.inl e.symm))
    have ht : sep ∉ t := fun hm => hmem (List.mem_cons_of_mem c hm)
    have hrec : pysplit sep (t ++ sep :: u) = t :: pysplit sep u := ih u ht
    show pysplit sep (c :: (t ++ sep :: u)) = (c :: t) :: pysplit sep u
    rw [pysplit_cons_ne sep c (t ++ sep :: u) hc t (pysplit sep u) hrec]

theorem pysplit_eq_single (sep : Char) : ∀ t : Str, sep ∉ t → pysplit sep t = [t] := by
  intro t
  induction t with
  | nil => intro _; rfl
  | cons c t ih =>
    intro hmem
    have hc : c ≠ sep := fun e => hmem (List.mem_cons.mpr (Or.inl e.symm))
    have ht := ih (fun hm => hmem (List.mem_cons_of_mem c hm))
    rw [pysplit_cons_ne sep c t hc t [] ht]

theorem pysplit_joinWith (sep : Char) :
    ∀ ts : List Str, ts ≠ [] → (∀ t ∈ ts, sep ∉ t) →
      pysplit sep (joinWith sep ts) = ts := by
  intro ts
  induction ts with
  | nil =>
    intro h
    exact absurd rfl h
  | cons t rest ih =>
    intro _ h
    cases rest with
    | nil =>
      show pysplit sep t = [t]
      exact pysplit_eq_single sep t (h t (List.mem_cons_self t []))
    | cons t2 rest2 =>
      show pysplit sep (t ++ sep :: joinWith sep (t2 :: rest2)) = t :: t2 :: rest2
      rw [pysplit_append_sep_cons sep t _ (h t (List.mem_cons_self _ _))]
      rw [ih (by simp) (fun u hu => h u (List.mem_cons_of_mem t hu))]

theorem pysplit_joinWith_concat (sep : Char) :
    ∀ ts : List Str, ts ≠ [] → (∀ t ∈ ts, sep ∉ t) →
      pysplit sep (joinWith sep ts ++ [sep]) = ts ++ [[]] := by
  intro ts
  induction ts with
  | nil =>
    intro h
    exact absurd rfl h
  | cons t rest ih =>
    intro _ h
    cases rest with
    | nil =>
      show pysplit sep (t ++ [sep]) = [t, []]
      have heq : t ++ [sep] = t ++ sep :: ([] : Str) := rfl
      rw [heq, pysplit_append_sep_cons sep t [] (h t (List.mem_cons_self _ _))]
      rfl
    | cons t2 rest2 =>
      show pysplit sep ((t ++ sep :: joinWith sep (t2 :: rest2)) ++ [sep])
        = (t :: t2 :: rest2) ++ [[]]
      rw [List.append_assoc]
      rw [show (sep :: joinWith sep (t2 :: rest2)) ++ [sep]
          = sep :: (joinWith sep (t2 :: rest2) ++ [sep]) from rfl]
      rw [pysplit_append_sep_cons sep t _ (h t (List.mem_cons_self _ _))]
      rw [ih (by simp) (fun u hu => h u (List.mem_cons_of_mem t hu))]
      rfl

theorem lineCells_rowLine (r : Row) (hr : r ≠ [])
    (hpipe : ∀ cell ∈ r, '|' ∉ cell) (htrim : ∀ cell ∈ r, pystrip cell = cell) :
    lineCells (rowLine r) = r := by
  unfold lineCells rowLine
  rw [show ('|' :: joinWith '|' r ++ ['|'])
      = '|' :: (joinWith '|' r ++ ['|']) from rfl]
  rw [pysplit_cons_sep]
  rw [pysplit_joinWith_concat '|' r hr hpipe]
  rw [show (([] : Str) :: (r ++ [[]])).drop 1 = r ++ [[]] from rfl]
  rw [List.dropLast_concat]
  exact map_pystrip_id r htrim

theorem filterMap_eq_self_of {α : Type} (f : α → Option α) :
    ∀ l : List α, (∀ x ∈ l, f x = some x) → l.filterMap f = l := by
  intro l
  induction l with
  | nil => intro _; rfl
  | cons a l ih =>
    intro h
    rw [List.filterMap_cons_some (h a (List.mem_cons_self a l))]
    rw [ih (fun x hx => h x (List.mem_cons_of_mem a hx))]

theorem mem_filteredLines_facts {md line : Str} (h : line ∈ filteredLines md) :
    pystrip line = line ∧ '\n' ∉ line ∧ '|' ∈ line ∧ isDecoration line = false := by
  unfold filteredLines at h
  obtain ⟨hmem, hdec⟩ := List.mem_filter.mp h
  unfold candidateLines at hmem
  obtain ⟨l0, hl0, rfl⟩ := List.mem_map.mp hmem
  obtain ⟨hl0mem, hpipe⟩ := List.mem_filter.mp hl0
  refine ⟨pystrip_idem l0, ?_, ?_, ?_⟩
  · intro hnl
    exact sep_not_mem_pysplit '\n' md l0 hl0mem (mem_of_mem_pystrip hnl)
  · have hp : '|' ∈ l0 := by simpa using hpipe
    exact mem_pystrip_of_mem (by decide) hp
  · simpa using hdec

theorem parse_row_facts {md : Str} {expected : List Str} {n : Nat} {r : Row}
    (hr : r ∈ parseMarkdown md expected n) :
    (∀ cell ∈ r, pystrip cell = cell ∧ '|' ∉ cell ∧ '\n' ∉ cell)
    ∧ r.length = headerCountOf md n
    ∧ ∃ c0 cs, r = c0 :: cs
        ∧ (expected.map normalizeKw).contains (pylower (pystrip c0)) = true := by
  obtain ⟨header, rest, line, hf, hline, hrow⟩ := mem_parseMarkdown hr
  obtain ⟨hcells, hlen, c0, cs, hrshape, hcont⟩ := rowOfLine_some_iff.mp hrow
  have hlinemem : line ∈ filteredLines md := by
    rw [hf]
    exact List.mem_cons_of_mem header hline
  obtain ⟨_, hlnl, _, _⟩ := mem_filteredLines_facts hlinemem
  refine ⟨?_, hlen, c0, cs, hrshape, hcont⟩
  intro cell hcm
  rw [hcells] at hcm
  unfold lineCells at hcm
  obtain ⟨seg, hsegmem, rfl⟩ := List.mem_map.mp hcm
  have hseg : seg ∈ pysplit '|' line := by
    have h1 := (List.dropLast_sublist ((pysplit '|' line).drop 1)).subset hsegmem
    exact (List.drop_sublist 1 (pysplit '|' line)).subset h1
  refine ⟨pystrip_idem seg, ?_, ?_⟩
  · intro hp
    exact sep_not_mem_pysplit '|' line seg hseg (mem_of_mem_pystrip hp)
  · intro hnl
    exact hlnl (mem_of_mem_pysplit '|' '\n' line seg hseg (mem_of_mem_pystrip hnl))

/-- C8 (counterexample): the parser accepts a row with a dash-heavy cell from
a padded line, but the canonical pipe-delimited re-serialization of that
accepted row is itself caught by the decoration filter, so re-parsing the
re-serialized rows yields `[]`, not the same rows. -/
theorem claim_C8_counterexample :
    parseMarkdown ("|H|C|\n|a       |-----------|").toList [("a").toList] 2
      = [[("a").toList, ("-----------").toList]]
    ∧ parseMarkdown
        (joinWith '\n' (("|H|C|").toList
          :: (parseMarkdown ("|H|C|\n|a       |-----------|").toList
                [("a").toList] 2).map rowLine))
        [("a").toList] 2
      = []
    ∧ ([] : List Row) ≠ [[("a").toList, ("-----------").toList]] := by
  refine ⟨by decide, by decide, by decide⟩

/-- C8 (amended): re-parsing the parser's accepted rows, re-serialized under
the original header line in the same pipe-delimited layout, with the same
expected keyword set and expected column count, returns exactly the same
row sequence — provided no re-serialized row line is itself caught by the
decoration filter, a proviso the counterexample shows is necessary. -/
theorem claim_C8 : ∀ (md : Str) (expected : List Str) (n : Nat) (H : Str)
    (rest : List Str),
    filteredLines md = H :: rest →
    (∀ r ∈ parseMarkdown md expected n, isDecoration (rowLine r) = false) →
    parseMarkdown
        (joinWith '\n' (H :: (parseMarkdown md expected n).map rowLine))
        expected n
      = parseMarkdown md expected n := by
  intro md expected n H rest hf hdec
  set R := parseMarkdown md expected n with hR
  have hHmem : H ∈ filteredLines md := by
    rw [hf]
    exact List.mem_cons_self H rest
  obtain ⟨hHstrip, hHnl, hHpipe, hHdec⟩ := mem_filteredLines_facts hHmem
  have hserial : pysplit '\n'
      (joinWith '\n' (H :: (parseMarkdown md expected n).map rowLine))
      = H :: (parseMarkdown md expected n).map rowLine := by
    apply pysplit_joinWith
    · simp
    · intro t ht
      rcases List.mem_cons.mp ht with rfl | ht'
      · exact hHnl
      · obtain ⟨r, hr, rfl⟩ := List.mem_map.mp ht'
        exact rowLine_no_newline r
          (fun cell hcell => ((parse_row_facts hr).1 cell hcell).2.2)
  have hcand : candidateLines
      (joinWith '\n' (H :: (parseMarkdown md expected n).map rowLine))
      = H :: (parseMarkdown md expected n).map rowLine := by
    have hpipes : ∀ a ∈ H :: (parseMarkdown md expected n).map rowLine,
        a.contains '|' = true := by
      intro a ha
      rcases List.mem_cons.mp ha with rfl | ha'
      · exact contains_pipe_of_mem hHpipe
      · obtain ⟨r, hr, rfl⟩ := List.mem_map.mp ha'
        exact contains_pipe_of_mem
          (show '|' ∈ '|' :: (joinWith '|' r ++ ['|']) from
            List.mem_cons_self '|' _)
    have hstrips : ∀ a ∈ H :: (parseMarkdown md expected n).map rowLine,
        pystrip a = a := by
      intro a ha
      rcases List.mem_cons.mp ha with rfl | ha'
      · exact hHstrip
      · obtain ⟨r, hr, rfl⟩ := List.mem_map.mp ha'
        exact pystrip_rowLine r
    unfold candidateLines
    rw [hserial]
    rw [List.filter_eq_self.mpr hpipes]
    exact map_pystrip_id _ hstrips
  have hfil : filteredLines
      (joinWith '\n' (H :: (parseMarkdown md expected n).map rowLine))
      = H :: (parseMarkdown md expected n).map rowLine := by
    unfold filteredLines
    rw [hcand]
    apply List.filter_eq_self.mpr
    intro a ha
    rcases List.mem_cons.mp ha with rfl | ha'
    · simp [hHdec]
    · obtain ⟨r, hr, rfl⟩ := List.mem_map.mp ha'
      simp [hdec r hr]
  have hhc : headerCountOf
      (joinWith '\n' (H :: (parseMarkdown md expected n).map rowLine)) n
      = headerCountOf md n := by
    unfold headerCountOf
    rw [hfil, hf]
  have hmain : ∀ r ∈ R,
      rowOfLine (expected.map normalizeKw) (headerCountOf md n) (rowLine r)
        = some r := by
    intro r hr
    have hr' : r ∈ parseMarkdown md expected n := by
      rw [← hR]
      exact hr
    obtain ⟨hcellfacts, hlen, c0, cs, hrshape, hcont⟩ := parse_row_facts hr'
    have hlc : lineCells (rowLine r) = r :=
      lineCells_rowLine r (by rw [hrshape]; simp)
        (fun cell hc => (hcellfacts cell hc).2.1)
        (fun cell hc => (hcellfacts cell hc).1)
    exact rowOfLine_some_iff.mpr ⟨hlc.symm, hlen, c0, cs, hrshape, hcont⟩
  show parseMarkdown (joinWith '\n' (H :: R.map rowLine)) expected n = R
  unfold parseMarkdown
  rw [hfil, hhc]
  show (R.map rowLine).filterMap
      (rowOfLine (expected.map normalizeKw) (headerCountOf md n)) = R
  rw [List.filterMap_map]
  exact filterMap_eq_self_of _ R (fun r hr => hmain r hr)

/-- C8 witness: the amended theorem applied to a concrete two-line table with
no decoration-like cells, where the re-parse reproduces the accepted rows. -/
theorem claim_C8_witness :
    parseMarkdown
        (joinWith '\n' (("|K|C|").toList
          :: (parseMarkdown ("|K|C|\n|a|x|").toList [("a").toList] 2).map rowLine))
        [("a").toList] 2
      = parseMarkdown ("|K|C|\n|a|x|").toList [("a").toList] 2 :=
  claim_C8 (("|K|C|\n|a|x|").toList) [("a").toList] 2 (("|K|C|").toList)
    [("|a|x|").toList] (by decide) (by decide)

end Seo
